import Mathlib

/-!
# Verification of the libiio `iiod-responder` protocol engine

Shallow embedding of `iiod-responder.c` (the bidirectional, multiplexed
request/response engine).  Machine integers are modelled as `Nat`/`Int` with
explicit reductions modulo `2^w` at the places where the C code performs an
implicit conversion.  The transport operations (`read`, `write`, `discard`)
are modelled by an *oracle*: the list of successive return values the
transport produces; bytes travel on explicit `List Nat` streams.  Fallible
or not-modelled outcomes (transport interaction left unfinished, C reads
past the descriptor array) are `Option`.
-/

namespace IiodResponder

/-- Value of `EINVAL`, as returned (positive!) by `iiod_rw_all`. -/
def EINVAL : Int := 22

/-- Opcode `IIOD_OP_RESPONSE` from `enum iiod_opcode` (first enumerator). -/
def IIOD_OP_RESPONSE : Nat := 0

/-- C `size_t` subtraction `a - b` (64-bit wraparound), for `a b < 2^64`. -/
def sub64 (a b : Nat) : Nat :=
  if b ≤ a then a - b else 2 ^ 64 + a - b

/-- Implicit C conversion of a signed value to `size_t` (reduction mod `2^64`). -/
def toSize (i : Int) : Nat :=
  (i % (2 : Int) ^ 64).toNat

/-- Model of `struct iiod_command`: the fixed 8-byte frame header. -/
structure iiod_command where
  client_id : Nat
  op : Nat
  dev : Nat
  code : Int
  deriving Repr, DecidableEq

/-- Total byte size of a buffer descriptor list (`struct iiod_buf` entries are
modelled by their byte contents; the descriptor's `size` is the length). -/
def listTotal (bufs : List (List Nat)) : Nat :=
  (bufs.map List.length).sum

/-- The inner advance loop of `iiod_rw_all`:
`while (ret && (size_t) ret >= curr->size) { ret -= curr->size; count += curr->size; nb--; curr++; }`.
Returns `(remaining ret, remaining descriptors, bytes counted)`.  `none` when
the C code would dereference past the end of the descriptor array
(`ret > 0` with no descriptors left). -/
def rw_advance : Nat → List (List Nat) → Option (Nat × List (List Nat) × Nat)
  | r, [] => if r = 0 then some (0, [], 0) else none
  | r, b :: bs =>
    if r ≠ 0 ∧ b.length ≤ r then
      match rw_advance (r - b.length) bs with
      | some (r₂, bs₂, c) => some (r₂, bs₂, b.length + c)
      | none => none
    else
      some (r, b :: bs, 0)

/-- Result of `iiod_rw_all`: the `ssize_t` return value, the bytes appended to
the transport's outbound stream, the bytes delivered into the caller's
buffers, the remaining inbound stream, and the number of transport calls. -/
structure RwOut where
  ret : Int
  outStream : List Nat
  delivered : List Nat
  inStream : List Nat
  calls : Nat
  deriving Repr, DecidableEq

/-- The `while (true)` loop of `iiod_rw_all`, recursing on the transport
oracle (one entry consumed per `ops->read`/`ops->write` call).  `bufs` is the
current descriptor window (`curr`, `nb`), `count` the bytes counted so far. -/
def rw_loop (is_read : Bool) (bytes : Nat) :
    List Int → List (List Nat) → Nat → List Nat → List Nat → List Nat → Nat → Option RwOut
  | [], _, _, _, _, _, _ => none
  | _ :: _, [], _, _, _, _, _ => none
  | o :: os, b :: bs, count, inS, outS, deliv, calls =>
    let bufs1 := if is_read ∧ sub64 bytes count ≤ b.length then
        [b.take (sub64 bytes count)]
      else
        b :: bs
    if o ≤ 0 then
      some ⟨o, outS, deliv, inS, calls + 1⟩
    else
      let r := o.toNat
      let inS' := if is_read then inS.drop r else inS
      let deliv' := if is_read then deliv ++ inS.take r else deliv
      let outS' := if is_read then outS else outS ++ (bufs1.flatten.take r)
      match rw_advance r bufs1 with
      | none => none
      | some (r₂, bufs2, consumed) =>
        let count' := count + consumed
        if r₂ = 0 ∧ bufs2 = [] then
          some ⟨(count' : Int), outS', deliv', inS', calls + 1⟩
        else
          match bufs2 with
          | [] => none
          | hb :: tb =>
            rw_loop is_read bytes os (hb.drop r₂ :: tb) (count' + r₂) inS' outS' deliv' (calls + 1)

/-- Model of `iiod_rw_all(priv, cmd_buf, buf, nb, bytes, is_read)`.  `cmd_buf` is the
optional header descriptor prepended to the payload list; returns (positive)
`EINVAL` without touching the transport when the effective descriptor count
is zero or exceeds 32. -/
def iiod_rw_all (oracle : List Int) (cmd_buf : Option (List Nat))
    (buf : List (List Nat)) (bytes : Nat) (is_read : Bool)
    (inS outS : List Nat) : Option RwOut :=
  let bufs := match cmd_buf with
    | some c => c :: buf
    | none => buf
  if bufs.length = 0 ∨ bufs.length > 32 then
    some ⟨EINVAL, outS, [], inS, 0⟩
  else
    rw_loop is_read bytes oracle bufs 0 inS outS [] 0

/-- Model of `iiod_discard_data(priv, bytes)`: loop calling `ops->discard` until all
bytes are gone, with `bytes -= (size_t) ret` (64-bit wraparound).  Returns the
`int` result and the remaining inbound stream. -/
def iiod_discard_data : List Int → Nat → List Nat → Option (Int × List Nat)
  | _, 0, inS => some (0, inS)
  | [], _ + 1, _ => none
  | d :: ds, b + 1, inS =>
    if d < 0 then
      some (d, inS)
    else
      iiod_discard_data ds (sub64 (b + 1) d.toNat) (inS.drop d.toNat)

/-- Executable conformance of a discard oracle: each call makes positive
progress not exceeding the remaining byte count (the transport contract). -/
def discardOK : List Int → Nat → Bool
  | _, 0 => true
  | [], _ + 1 => false
  | d :: ds, b + 1 => 0 < d ∧ d.toNat ≤ b + 1 ∧ discardOK ds (b + 1 - d.toNat)

/-- A client handle (`struct iiod_reader`), reader side: its `client_id`, the
registered receive buffer list (`r_io.buf`/`r_io.nb_buf`; `none` models a
NULL `buf` pointer), the response slot `r_io.cmd.code`, the `r_done` flag and
whether an `r_io.cleanup_cb` is registered. -/
structure Reader where
  client_id : Nat
  r_buf : Option (List (List Nat))
  r_code : Int
  r_done : Bool
  r_cleanup : Bool
  deriving Repr, DecidableEq

/-- The scan `for (tmp = list; tmp->next; tmp = tmp->next) if (tmp->next == io)
{ tmp->next = io->next; break; }`: remove the first entry matching `io`
(pointer identity modelled by `eq`) from the tail. -/
def remove_next {α : Type} (eq : α → α → Bool) (io : α) : List α → List α
  | [] => []
  | x :: xs => if eq io x then xs else x :: remove_next eq io xs

/-- Model of `__iiod_reader_cancel_unlocked`: if `io` is the list head the whole list
pointer is set to NULL; otherwise the first matching tail entry is unlinked. -/
def __iiod_reader_cancel_unlocked {α : Type} (eq : α → α → Bool) (io : α)
    (readers : List α) : List α :=
  match readers with
  | [] => []
  | r :: rs => if eq io r then [] else r :: remove_next eq io rs

/-- Model of `__iiod_writer_cancel_unlocked`: identical shape on the writers queue. -/
def __iiod_writer_cancel_unlocked {α : Type} (eq : α → α → Bool) (io : α)
    (writers : List α) : List α :=
  match writers with
  | [] => []
  | w :: ws => if eq io w then [] else w :: remove_next eq io ws

/-- Model of `iiod_reader_cancel`: detach the handle from the readers list and the
writers queue. -/
def iiod_reader_cancel {α : Type} (eq : α → α → Bool) (io : α)
    (readers writers : List α) : List α × List α :=
  (__iiod_reader_cancel_unlocked eq io readers,
   __iiod_writer_cancel_unlocked eq io writers)

/-- Outcome of one reader-thread iteration dispatching an inbound RESPONSE
frame (lines 217-256 of `iiod-responder.c`). -/
structure DispatchOut where
  readers : List Reader
  waiter : Option Reader
  delivered : List Nat
  inStream : List Nat
  discardReq : Nat
  discardRet : Int
  rwRet : Option Int
  deriving Repr, DecidableEq

/-- The byte count the reader thread passes to `iiod_discard_data` for an
orphan response: `iiod_discard_data(priv, cmd.code)` converts the signed
32-bit `cmd.code` to `size_t`. -/
def orphan_discard_request (cmd : iiod_command) : Nat :=
  toSize cmd.code

/-- Reader-thread handling of an inbound frame with `op == IIOD_OP_RESPONSE`:
find the waiter by `client_id`; if none, discard `(size_t) cmd.code` bytes;
otherwise unlink it, store `cmd.code`, read the payload into its buffer list
when one is registered and `cmd.code > 0`, discarding any excess, then set
`r_done`. -/
def reader_dispatch_response (cmd : iiod_command) (readers : List Reader)
    (inS : List Nat) (roracle doracle : List Int) : Option DispatchOut :=
  match readers.find? (fun r => r.client_id == cmd.client_id) with
  | none =>
    match iiod_discard_data doracle (orphan_discard_request cmd) inS with
    | none => none
    | some (dr, inS') =>
      some ⟨readers, none, [], inS', orphan_discard_request cmd, dr, none⟩
  | some reader =>
    let readers' := __iiod_reader_cancel_unlocked
        (fun a b => a.client_id == b.client_id) reader readers
    let reader₁ := { reader with r_code := cmd.code }
    match reader₁.r_buf with
    | some bufs =>
      if 0 < cmd.code then
        match iiod_rw_all roracle none bufs (toSize cmd.code) true inS [] with
        | none => none
        | some out =>
          if 0 < out.ret ∧ toSize out.ret < toSize cmd.code then
            match iiod_discard_data doracle (toSize (cmd.code - out.ret))
                out.inStream with
            | none => none
            | some (dr, inS') =>
              some ⟨readers', some { reader₁ with r_done := true },
                    out.delivered, inS', toSize (cmd.code - out.ret), dr,
                    some out.ret⟩
          else
            some ⟨readers', some { reader₁ with r_done := true },
                  out.delivered, out.inStream, 0, 0, some out.ret⟩
      else
        some ⟨readers', some { reader₁ with r_done := true }, [], inS, 0, 0, none⟩
    | none =>
      some ⟨readers', some { reader₁ with r_done := true }, [], inS, 0, 0, none⟩

/-- Model of `iiod_reader_wait_for_response`: after `r_done`, return `r_io.cmd.code`. -/
def iiod_reader_wait_for_response (reader : Reader) : Int :=
  reader.r_code

/-- A client handle, writer side (`w_io` slot): the frame header fields, the
payload descriptor list, the cleanup-callback flag and `w_done`. -/
structure WHandle where
  client_id : Nat
  w_op : Nat
  w_dev : Nat
  w_code : Int
  w_buf : List (List Nat)
  w_cleanup : Bool
  w_done : Bool
  deriving Repr, DecidableEq

/-- Model of `iiod_enqueue_command`: fill the handle's `w_io` slot and append the
handle at the tail of the writers queue; always returns 0. -/
def iiod_enqueue_command (writers : List WHandle) (writer : WHandle)
    (op dev : Nat) (code : Int) (buf : List (List Nat)) (cleanup : Bool) :
    List WHandle × WHandle × Int :=
  let w : WHandle :=
    { writer with
      w_op := op
      w_dev := dev
      w_code := code
      w_buf := buf
      w_cleanup := cleanup
      w_done := false }
  let ws := if writers.isEmpty then [w] else writers ++ [w]
  (ws, w, 0)

/-- Model of `iiod_reader_send_command_async`. -/
def iiod_reader_send_command_async (writers : List WHandle) (reader : WHandle)
    (cmd : iiod_command) (buf : List (List Nat)) (cleanup : Bool) :
    List WHandle × WHandle × Int :=
  iiod_enqueue_command writers reader cmd.op cmd.dev cmd.code buf cleanup

/-- Model of `iiod_reader_send_response_async`: enqueue with `op = IIOD_OP_RESPONSE`
and `dev = 0`. -/
def iiod_reader_send_response_async (writers : List WHandle) (reader : WHandle)
    (code : Int) (buf : List (List Nat)) (cleanup : Bool) :
    List WHandle × WHandle × Int :=
  iiod_enqueue_command writers reader IIOD_OP_RESPONSE 0 code buf cleanup

/-- Little-endian bytes of a 16-bit value. -/
def u16_bytes (n : Nat) : List Nat :=
  [n % 256, n / 256 % 256]

/-- Little-endian bytes of a 32-bit signed value. -/
def i32_bytes (i : Int) : List Nat :=
  let n := (i % (2 : Int) ^ 32).toNat
  [n % 256, n / 256 % 256, n / 2 ^ 16 % 256, n / 2 ^ 24 % 256]

/-- In-memory layout of `struct iiod_command` (host-endian, 8 bytes). -/
def cmd_bytes (c : iiod_command) : List Nat :=
  u16_bytes c.client_id ++ [c.op % 256, c.dev % 256] ++ i32_bytes c.code

/-- The header of a queued handle's pending frame. -/
def w_cmd (w : WHandle) : iiod_command :=
  ⟨w.client_id, w.w_op, w.w_dev, w.w_code⟩

/-- Full wire image of a queued handle's pending frame: 8-byte header then
the gathered payload. -/
def frame_bytes (w : WHandle) : List Nat :=
  cmd_bytes (w_cmd w) ++ w.w_buf.flatten

/-- One iteration of `iiod_responder_writer_thrd` with a non-empty queue:
detach the head, serialize `(header, payload)` via `iiod_rw_all`, store the
result in `w_io.cmd.code`, set `w_done`, and report the cleanup-callback
argument when `w_io.nb_buf && w_io.cleanup_cb`. -/
structure WStepOut where
  writers : List WHandle
  writer : WHandle
  outStream : List Nat
  cleanupArg : Option Int
  deriving Repr, DecidableEq

def iiod_responder_writer_step (writers : List WHandle) (oracle : List Int)
    (inS outS : List Nat) : Option WStepOut :=
  match writers with
  | [] => none
  | writer :: rest =>
    match iiod_rw_all oracle (some (cmd_bytes (w_cmd writer))) writer.w_buf
        0 false inS outS with
    | none => none
    | some out =>
      let writer' := { writer with w_code := out.ret, w_done := true }
      some ⟨rest, writer', out.outStream,
            if writer.w_buf.length ≠ 0 ∧ writer.w_cleanup then some out.ret
            else none⟩

/-- Model of `iiod_reader_send_command`: enqueue asynchronously, propagate a non-zero
enqueue result, otherwise wait for `w_done` and return 0. -/
def iiod_reader_send_command (writers : List WHandle) (reader : WHandle)
    (cmd : iiod_command) (buf : List (List Nat)) : List WHandle × WHandle × Int :=
  let (ws, w, ret) := iiod_reader_send_command_async writers reader cmd buf false
  if ret ≠ 0 then (ws, w, ret) else (ws, w, 0)

/-- Model of `iiod_responder_get_new_id`: `id = priv->next_client_id++` on a `uint16_t`
field: return the current id, store its 16-bit successor. -/
def iiod_responder_get_new_id (next_client_id : Nat) : Nat × Nat :=
  (next_client_id % 2 ^ 16, (next_client_id + 1) % 2 ^ 16)

/-- Model of `iiod_responder_create_reader`: allocate a fresh id and build a handle
carrying it.  Returns `(handle client_id, new next_client_id)`. -/
def iiod_responder_create_reader (next_client_id : Nat) : Nat × Nat :=
  iiod_responder_get_new_id next_client_id

/-- Composition: `iiod_reader_send_command` followed by the writer thread processing the
enqueued frame: returns `(send_command result, w_io.cmd.code afterwards)`.
The blocking `iiod_reader_wait_for_command_done` is the writer step here. -/
def send_command_scenario (reader : WHandle) (cmd : iiod_command)
    (buf : List (List Nat)) (oracle : List Int) : Option (Int × Int) :=
  let (ws, _, ret) := iiod_reader_send_command [] reader cmd buf
  match iiod_responder_writer_step ws oracle [] [] with
  | none => none
  | some o => some (ret, o.writer.w_code)

/-- The `client_id`s handed out by `k` successive `iiod_responder_create_reader`
calls starting from a given `next_client_id`. -/
def create_reader_ids (next_client_id : Nat) : Nat → List Nat
  | 0 => []
  | k + 1 =>
    let (id, next') := iiod_responder_create_reader next_client_id
    id :: create_reader_ids next' k

/-- An event of the writer-side system: a producer enqueues a frame on some
handle, or the writer thread performs one dequeue-and-serialize step (with
the given transport oracle). -/
inductive WriterEvent where
  | enq (h : WHandle) (op dev : Nat) (code : Int) (buf : List (List Nat))
      (cleanup : Bool)
  | write (oracle : List Int)

/-- State of the writer-side system: the queue, the transport's outbound byte
stream, the frames fully serialized so far (in order), and whether every
writer step so far completed its frame (`ok`). -/
structure WriterRun where
  writers : List WHandle
  outStream : List Nat
  sent : List WHandle
  ok : Bool
  deriving Repr, DecidableEq

/-- One event of the writer-side system.  A `write` with an empty queue is
the writer thread sleeping on its condvar.  A writer step whose transport
interaction does not transfer the complete frame (`w_io.cmd.code` differs
from the frame length, or the descriptor count exceeds the 32 limit) clears
`ok` — only fully successful runs are subject to the FIFO byte-stream
statement — after which the run stays put. -/
def writer_run_step (s : WriterRun) (e : WriterEvent) : WriterRun :=
  if !s.ok then s
  else
    match e with
    | .enq h op dev code buf cl =>
      let (ws, _, _) := iiod_enqueue_command s.writers h op dev code buf cl
      { s with writers := ws }
    | .write oracle =>
      match s.writers with
      | [] => s
      | w :: _ =>
        match iiod_responder_writer_step s.writers oracle [] s.outStream with
        | none => { s with ok := false }
        | some o =>
          if w.w_buf.length + 1 ≤ 32 ∧
              o.writer.w_code = ((frame_bytes w).length : Int) then
            { writers := o.writers, outStream := o.outStream,
              sent := s.sent ++ [w], ok := true }
          else
            { s with ok := false }

/-- Run the writer-side system from a state over a list of events. -/
def writer_run (s : WriterRun) : List WriterEvent → WriterRun
  | [] => s
  | e :: es => writer_run (writer_run_step s e) es

/-- The frames enqueued by a list of events, in order, as they are placed in
the queue by `iiod_enqueue_command`. -/
def enqueued_frames : List WriterEvent → List WHandle
  | [] => []
  | .enq h op dev code buf cl :: es =>
    (iiod_enqueue_command [] h op dev code buf cl).2.1 :: enqueued_frames es
  | .write _ :: es => enqueued_frames es

/-- Which of the fallible setup steps of `iiod_responder_create` succeed. -/
structure CreateEnv where
  zalloc_ok : Bool
  lock_ok : Bool
  rlock_ok : Bool
  wlock_ok : Bool
  wcond_ok : Bool
  read_thrd_ok : Bool
  write_thrd_ok : Bool
  deriving Repr, DecidableEq

/-- A created responder, recording whether each thread handle is valid. -/
structure Responder where
  read_thrd_ok : Bool
  write_thrd_ok : Bool
  deriving Repr, DecidableEq

/-- Resource tags, in allocation order, for the rollback trace. -/
def resPriv : Nat := 0
def resLock : Nat := 1
def resRlock : Nat := 2
def resWlock : Nat := 3
def resWcond : Nat := 4
def resReadThrd : Nat := 5

/-- Model of `iiod_responder_create`: the allocation ladder with its `goto` rollback
chain.  Faithful to the source: the check after spawning the writer thread
tests `IS_ERR(priv->read_thrd)` (not the writer thread handle).  Returns the
responder (or `none`) together with the list of resources released on the
error path, in release order. -/
def iiod_responder_create (e : CreateEnv) : Option Responder × List Nat :=
  if !e.zalloc_ok then (none, [])
  else if !e.lock_ok then (none, [resPriv])
  else if !e.rlock_ok then (none, [resLock, resPriv])
  else if !e.wlock_ok then (none, [resRlock, resLock, resPriv])
  else if !e.wcond_ok then (none, [resWlock, resRlock, resLock, resPriv])
  else if !e.read_thrd_ok then
    (none, [resWcond, resWlock, resRlock, resLock, resPriv])
  else if !e.read_thrd_ok then
    (none, [resReadThrd, resWcond, resWlock, resRlock, resLock, resPriv])
  else (some ⟨e.read_thrd_ok, e.write_thrd_ok⟩, [])

/-! ## Helper lemmas about the scatter/gather loop -/

theorem listTotal_eq_length_flatten (bufs : List (List Nat)) :
    listTotal bufs = bufs.flatten.length := by
  simp [listTotal, List.length_flatten]

theorem rw_advance_spec (r : Nat) (bufs : List (List Nat))
    (r₂ : Nat) (bufs2 : List (List Nat)) (consumed : Nat)
    (h : rw_advance r bufs = some (r₂, bufs2, consumed)) :
    consumed + r₂ = r ∧ listTotal bufs2 + consumed = listTotal bufs ∧
    (bufs2 = [] → r₂ = 0) ∧ r₂ ≤ (bufs2.headD []).length ∧
    bufs.flatten.drop r = (bufs2.headD []).drop r₂ ++ bufs2.tail.flatten := by
  induction bufs generalizing r r₂ bufs2 consumed with
  | nil =>
    rw [rw_advance] at h
    split at h
    next hr =>
      simp only [Option.some.injEq, Prod.mk.injEq] at h
      obtain ⟨h1, h2, h3⟩ := h
      subst hr; subst h1; subst h2; subst h3
      simp [listTotal]
    next hr => simp at h
  | cons b bs ih =>
    rw [rw_advance] at h
    split at h
    next hc =>
      cases hrec : rw_advance (r - b.length) bs with
      | none => rw [hrec] at h; simp at h
      | some v =>
        obtain ⟨r₃, bs₃, c₃⟩ := v
        rw [hrec] at h
        simp only [Option.some.injEq, Prod.mk.injEq] at h
        obtain ⟨h1, h2, h3⟩ := h
        subst h1; subst h2; subst h3
        obtain ⟨ihA, ihB, ihC, ihD, ihE⟩ := ih (r - b.length) r₃ bs₃ c₃ hrec
        have hbr : b.length ≤ r := hc.2
        refine ⟨by omega, ?_, ihC, ihD, ?_⟩
        · simp only [listTotal, List.map_cons, List.sum_cons] at *
          omega
        · rw [List.flatten_cons, ← ihE]
          rw [show r = b.length + (r - b.length) by omega, ← List.drop_drop,
              List.drop_append_of_le_length (le_refl b.length)]
          simp
    next hc =>
      simp only [Option.some.injEq, Prod.mk.injEq] at h
      obtain ⟨h1, h2, h3⟩ := h
      subst h1; subst h2; subst h3
      push_neg at hc
      have hle : r ≤ b.length := by
        by_cases h0 : r = 0
        · omega
        · have := hc h0
          omega
      refine ⟨by omega, by omega, by simp, by simpa using hle, ?_⟩
      simp only [List.headD_cons, List.tail_cons, List.flatten_cons]
      exact List.drop_append_of_le_length hle

@[simp] theorem listTotal_nil : listTotal [] = 0 := rfl

@[simp] theorem listTotal_cons (b : List Nat) (bs : List (List Nat)) :
    listTotal (b :: bs) = b.length + listTotal bs := by
  simp [listTotal]

theorem rw_loop_write_total (bytes : Nat) (oracle : List Int)
    (bufs : List (List Nat)) (count : Nat) (inS outS deliv : List Nat)
    (calls : Nat) (out : RwOut)
    (h : rw_loop false bytes oracle bufs count inS outS deliv calls = some out)
    (hret : out.ret = ((count + listTotal bufs : Nat) : Int))
    (hpos : 0 < count + listTotal bufs) :
    out.outStream = outS ++ bufs.flatten ∧ out.inStream = inS ∧
    out.delivered = deliv := by
  induction oracle generalizing bufs count outS calls with
  | nil => simp [rw_loop] at h
  | cons o os ih =>
    cases bufs with
    | nil => simp [rw_loop] at h
    | cons b bs =>
      rw [rw_loop] at h
      simp only [Bool.false_eq_true, false_and, if_false] at h
      split at h
      next ho =>
        rw [Option.some.injEq] at h
        subst h
        simp only at hret
        omega
      next ho =>
        cases hrec : rw_advance o.toNat (b :: bs) with
        | none => simp [hrec] at h
        | some v =>
          obtain ⟨r₂, bufs2, consumed⟩ := v
          simp only [hrec] at h
          obtain ⟨hA, hB, hC, hD, hE⟩ := rw_advance_spec _ _ _ _ _ hrec
          split at h
          next hfin =>
            obtain ⟨hr0, hb0⟩ := hfin
            subst hr0; subst hb0
            rw [Option.some.injEq] at h
            subst h
            refine ⟨?_, rfl, rfl⟩
            have hlen : o.toNat = (b :: bs).flatten.length := by
              rw [← listTotal_eq_length_flatten]
              simp only [listTotal_nil] at hB
              omega
            simp only [hlen, List.take_length]
          next hfin =>
            cases bufs2 with
            | nil => exact absurd (hC rfl) (by simpa using hfin)
            | cons hb tb =>
              have hDle : r₂ ≤ hb.length := by simpa using hD
              have hret2 : out.ret = (((count + consumed + r₂) +
                  listTotal (hb.drop r₂ :: tb) : Nat) : Int) := by
                rw [hret]
                congr 1
                simp only [listTotal_cons, List.length_drop] at *
                omega
              have hpos2 : 0 < (count + consumed + r₂) +
                  listTotal (hb.drop r₂ :: tb) := by
                simp only [listTotal_cons, List.length_drop] at *
                omega
              obtain ⟨ih1, ih2, ih3⟩ := ih _ _ _ _ h hret2 hpos2
              refine ⟨?_, ih2, ih3⟩
              rw [ih1]
              simp only [List.headD_cons, List.tail_cons] at hE
              nth_rewrite 2 [List.flatten_cons]
              rw [← hE, List.append_assoc, List.take_append_drop]

theorem rw_loop_read_over (bytes : Nat) (oracle : List Int)
    (bufs : List (List Nat)) (count : Nat) (inS outS deliv : List Nat)
    (calls : Nat) (out : RwOut)
    (hor : ∀ o ∈ oracle, 0 < o)
    (hcap : count + listTotal bufs < bytes)
    (hin : listTotal bufs ≤ inS.length)
    (h : rw_loop true bytes oracle bufs count inS outS deliv calls = some out) :
    out.ret = ((count + listTotal bufs : Nat) : Int) ∧
    out.delivered = deliv ++ inS.take (listTotal bufs) ∧
    out.inStream = inS.drop (listTotal bufs) ∧
    out.outStream = outS := by
  induction oracle generalizing bufs count inS outS deliv calls with
  | nil => simp [rw_loop] at h
  | cons o os ih =>
    cases bufs with
    | nil => simp [rw_loop] at h
    | cons b bs =>
      have ho : 0 < o := hor o (by simp)
      have hos : ∀ x ∈ os, 0 < x := fun x hx => hor x (by simp [hx])
      rw [rw_loop] at h
      have hsub : sub64 bytes count = bytes - count := by
        rw [sub64, if_pos (by omega)]
      have htr : ¬((true = true) ∧ sub64 bytes count ≤ b.length) := by
        rw [hsub]
        simp only [listTotal_cons] at hcap
        simp only [true_and]
        omega
      rw [if_neg htr, if_neg (by omega : ¬ o ≤ 0)] at h
      simp only [if_pos rfl, if_true] at h
      cases hrec : rw_advance o.toNat (b :: bs) with
      | none => simp [hrec] at h
      | some v =>
        obtain ⟨r₂, bufs2, consumed⟩ := v
        simp only [hrec] at h
        obtain ⟨hA, hB, hC, hD, hE⟩ := rw_advance_spec _ _ _ _ _ hrec
        split at h
        next hfin =>
          obtain ⟨hr0, hb0⟩ := hfin
          subst hr0; subst hb0
          rw [Option.some.injEq] at h
          subst h
          simp only [listTotal_nil] at hB
          have hr : o.toNat = listTotal (b :: bs) := by omega
          refine ⟨?_, ?_, ?_, rfl⟩
          · show ((count + consumed : Nat) : Int) =
              ((count + listTotal (b :: bs) : Nat) : Int)
            congr 1
            omega
          · show deliv ++ List.take o.toNat inS =
              deliv ++ List.take (listTotal (b :: bs)) inS
            rw [hr]
          · show List.drop o.toNat inS = List.drop (listTotal (b :: bs)) inS
            rw [hr]
        next hfin =>
          cases bufs2 with
          | nil => exact absurd (hC rfl) (by simpa using hfin)
          | cons hb tb =>
            have hDle : r₂ ≤ hb.length := by simpa using hD
            simp only [listTotal_cons] at hB hcap hin ⊢
            have hT2 : listTotal (List.drop r₂ hb :: tb) =
                (b.length + listTotal bs) - o.toNat := by
              simp only [listTotal_cons, List.length_drop]
              omega
            have hrle : o.toNat ≤ b.length + listTotal bs := by
              simp only [listTotal_cons] at hT2
              omega
            obtain ⟨ih1, ih2, ih3, ih4⟩ := ih _ _ _ _ _ _ hos
              (by rw [hT2]; omega)
              (by rw [hT2]; simp only [List.length_drop]; omega) h
            have hsum : b.length + listTotal bs =
                o.toNat + listTotal (List.drop r₂ hb :: tb) := by
              rw [hT2]; omega
            refine ⟨?_, ?_, ?_, ih4⟩
            · rw [ih1]; congr 1; omega
            · rw [ih2, hsum, List.take_add, List.append_assoc]
            · rw [ih3, List.drop_drop, hsum]

theorem rw_loop_result_cases (is_read : Bool) (bytes : Nat) (oracle : List Int)
    (bufs : List (List Nat)) (count : Nat) (inS outS deliv : List Nat)
    (calls : Nat) (out : RwOut)
    (hor : ∀ o ∈ oracle, o ≠ 0)
    (hin : is_read = true → listTotal bufs ≤ inS.length)
    (h : rw_loop is_read bytes oracle bufs count inS outS deliv calls = some out) :
    (out.ret < 0 ∧ out.ret ∈ oracle) ∨
    (0 ≤ out.ret ∧ out.ret.toNat + deliv.length + outS.length =
      count + out.delivered.length + out.outStream.length) := by
  induction oracle generalizing bufs count inS outS deliv calls with
  | nil => simp [rw_loop] at h
  | cons o os ih =>
    cases bufs with
    | nil => simp [rw_loop] at h
    | cons b bs =>
      have hone : o ≠ 0 := hor o (by simp)
      have hos : ∀ x ∈ os, x ≠ 0 := fun x hx => hor x (by simp [hx])
      rw [rw_loop] at h
      simp only [ne_eq] at h
      split at h
      next ho =>
        rw [Option.some.injEq] at h
        subst h
        refine Or.inl ⟨?_, ?_⟩
        · show o < 0
          omega
        · show o ∈ o :: os
          simp
      next ho =>
        have hmono : listTotal (if is_read = true ∧ sub64 bytes count ≤ b.length
            then [b.take (sub64 bytes count)] else b :: bs) ≤
            listTotal (b :: bs) := by
          split
          · simp only [listTotal_cons, listTotal_nil, List.length_take]
            omega
          · exact le_refl _
        cases hrec : rw_advance o.toNat
            (if is_read = true ∧ sub64 bytes count ≤ b.length
             then [b.take (sub64 bytes count)] else b :: bs) with
        | none => simp [hrec] at h
        | some v =>
          obtain ⟨r₂, bufs2, consumed⟩ := v
          simp only [hrec] at h
          obtain ⟨hA, hB, hC, hD, hE⟩ := rw_advance_spec _ _ _ _ _ hrec
          have hrle : o.toNat ≤ listTotal (if is_read = true ∧
              sub64 bytes count ≤ b.length
              then [b.take (sub64 bytes count)] else b :: bs) := by
            cases bufs2 with
            | nil =>
              have hr0 := hC rfl
              simp only [listTotal_nil] at hB
              omega
            | cons hb tb =>
              have hDle : r₂ ≤ hb.length := by simpa using hD
              simp only [listTotal_cons] at hB
              omega
          split at h
          next hfin =>
            obtain ⟨hr0, hb0⟩ := hfin
            subst hr0; subst hb0
            rw [Option.some.injEq] at h
            subst h
            simp only [listTotal_nil] at hB
            refine Or.inr ⟨Int.natCast_nonneg _, ?_⟩
            cases is_read with
            | false =>
              simp only [Bool.false_eq_true, false_and, if_false] at hrle ⊢
              show ((count + consumed : Nat) : Int).toNat + deliv.length +
                  outS.length = count + deliv.length +
                  (outS ++ List.take o.toNat (b :: bs).flatten).length
              have hflat : (b :: bs).flatten.length = listTotal (b :: bs) :=
                (listTotal_eq_length_flatten _).symm
              have hmin : o.toNat ⊓ (b :: bs).flatten.length = o.toNat := by
                rw [hflat]; exact min_eq_left hrle
              simp only [Int.toNat_natCast, List.length_append,
                List.length_take, hmin]
              omega
            | true =>
              simp only [if_pos rfl]
              show ((count + consumed : Nat) : Int).toNat + deliv.length +
                  outS.length = count +
                  (deliv ++ List.take o.toNat inS).length + outS.length
              have hinlen : o.toNat ≤ inS.length :=
                le_trans hrle (le_trans hmono (hin rfl))
              have hmin : o.toNat ⊓ inS.length = o.toNat := min_eq_left hinlen
              simp only [Int.toNat_natCast, List.length_append,
                List.length_take, hmin]
              omega
          next hfin =>
            cases bufs2 with
            | nil => exact absurd (hC rfl) (by simpa using hfin)
            | cons hb tb =>
              have hDle : r₂ ≤ hb.length := by simpa using hD
              have hin2 : is_read = true → listTotal (hb.drop r₂ :: tb) ≤
                  (if is_read = true then inS.drop o.toNat else inS).length := by
                intro hread
                subst hread
                have hm2 := le_trans hmono (hin rfl)
                show listTotal (List.drop r₂ hb :: tb) ≤
                  (List.drop o.toNat inS).length
                simp only [listTotal_cons, List.length_drop]
                simp only [eq_self_iff_true, true_and, listTotal_cons]
                  at hB hrle hm2
                omega
              rcases ih _ _ _ _ _ _ hos hin2 h with hl | hr2
              · exact Or.inl ⟨hl.1, by simp [hl.2]⟩
              · refine Or.inr ⟨hr2.1, ?_⟩
                cases is_read with
                | false =>
                  simp only [Bool.false_eq_true, false_and, if_false] at hrle hr2
                  have hflat : (b :: bs).flatten.length = listTotal (b :: bs) :=
                    (listTotal_eq_length_flatten _).symm
                  have hmin : o.toNat ⊓ (b :: bs).flatten.length = o.toNat := by
                    rw [hflat]; exact min_eq_left hrle
                  simp only [List.length_append, List.length_take, hmin] at hr2
                  omega
                | true =>
                  have hinlen : o.toNat ≤ inS.length :=
                    le_trans hrle (le_trans hmono (hin rfl))
                  have hmin : o.toNat ⊓ inS.length = o.toNat := min_eq_left hinlen
                  simp only [eq_self_iff_true, true_and, if_true,
                    List.length_append, List.length_take, hmin] at hr2
                  simp only [eq_self_iff_true, true_and] at hB hrle
                  simp only [listTotal_cons] at hB
                  omega

theorem iiod_discard_data_spec (ds : List Int) (n : Nat) (inS : List Nat)
    (h : discardOK ds n = true) :
    iiod_discard_data ds n inS = some (0, inS.drop n) := by
  induction ds generalizing n inS with
  | nil =>
    cases n with
    | zero => simp [iiod_discard_data]
    | succ m => simp [discardOK] at h
  | cons d ds ih =>
    cases n with
    | zero => simp [iiod_discard_data]
    | succ m =>
      simp only [discardOK, Bool.and_eq_true, decide_eq_true_eq] at h
      obtain ⟨hd, hdle, hrest⟩ := h
      rw [iiod_discard_data, if_neg (by omega)]
      have hsub : sub64 (m + 1) d.toNat = m + 1 - d.toNat := by
        rw [sub64, if_pos hdle]
      have harith : d.toNat + (m + 1 - d.toNat) = m + 1 := by omega
      rw [hsub, ih _ _ hrest, List.drop_drop, harith]

/-! ## Claim theorems -/

/-- C1: the claim says `iiod_reader_send_command` blocks until the writer
reports completion and returns the transport error on failure.  Evaluating
the code at the failing input: the transport write fails with `-32`
(`-EPIPE`); the writer thread stores `-32` into the handle's
`w_io.cmd.code`, yet `iiod_reader_send_command` still returns `0`. -/
theorem send_command_returns_zero_on_transport_error :
    send_command_scenario ⟨4, 0, 0, 0, [], false, false⟩ ⟨4, 2, 0, 0⟩ []
      [-32] = some (0, -32) ∧ (0 : Int) ≠ -32 := by
  constructor
  · decide
  · decide

/-- C2: the claim says an orphan RESPONSE discards exactly `max(0, code)`
bytes, in particular nothing when `code ≤ 0`.  Evaluating the code at the
failing input `code = -32`: `iiod_discard_data(priv, cmd.code)` converts the
negative code to `size_t`, requesting a discard of `2^64 - 32` bytes (so the
dispatch cannot even complete without transport activity, unlike the
`code = 0` case, which completes immediately discarding nothing). -/
theorem orphan_negative_code_discard_request :
    orphan_discard_request ⟨999, IIOD_OP_RESPONSE, 0, -32⟩ = 2 ^ 64 - 32 ∧
    2 ^ 64 - 32 ≠ (max (0 : Int) (-32)).toNat ∧
    reader_dispatch_response ⟨999, IIOD_OP_RESPONSE, 0, -32⟩ [] [] [] [] =
      none ∧
    reader_dispatch_response ⟨999, IIOD_OP_RESPONSE, 0, 0⟩ [] [] [] [] =
      some ⟨[], none, [], [], 0, 0, none⟩ := by
  refine ⟨by decide, by decide, by decide, by decide⟩

/-- C4: the claim says `iiod_reader_cancel` removes exactly the given handle
and leaves every other handle's membership intact.  Evaluating the code at
the failing input: cancelling handle `1` at the head of the readers list
`[1, 2]` sets the whole list pointer to NULL, dropping handle `2` as well,
instead of leaving `[2]`. -/
theorem cancel_head_drops_other_waiters :
    iiod_reader_cancel (fun a b => a == b) 1 [1, 2] [3] = ([], [3]) ∧
    ([] : List Nat) ≠ [2] := by
  refine ⟨by decide, by decide⟩

/-- C8: the claim says `iiod_responder_create` returns non-NULL iff every
setup step succeeds.  Evaluating the code at the failing input: when only
the writer-thread creation fails, the rollback check re-tests
`IS_ERR(priv->read_thrd)` and the function returns a non-NULL responder
carrying an invalid writer thread, instead of rolling back and returning
NULL. -/
theorem create_returns_responder_despite_writer_thread_failure :
    iiod_responder_create ⟨true, true, true, true, true, true, false⟩ =
      (some ⟨true, false⟩, []) ∧
    (some (⟨true, false⟩ : Responder) ≠ none) := by
  refine ⟨by decide, by decide⟩

/-- C6: for every registered waiter, a RESPONSE with negative `code` makes
the reader thread read no payload bytes, write nothing into the waiter's
receive buffers, and `iiod_reader_wait_for_response` returns that negative
code verbatim. -/
theorem negative_code_delivered_verbatim (cmd : iiod_command)
    (readers : List Reader) (w : Reader) (inS : List Nat)
    (roracle doracle : List Int)
    (hfind : readers.find? (fun r => r.client_id == cmd.client_id) = some w)
    (hneg : cmd.code < 0) :
    reader_dispatch_response cmd readers inS roracle doracle =
      some ⟨__iiod_reader_cancel_unlocked
              (fun a b => a.client_id == b.client_id) w readers,
            some { w with r_code := cmd.code, r_done := true },
            [], inS, 0, 0, none⟩ ∧
    iiod_reader_wait_for_response
      { w with r_code := cmd.code, r_done := true } = cmd.code := by
  refine ⟨?_, rfl⟩
  rw [reader_dispatch_response, hfind]
  simp only
  cases hbuf : w.r_buf with
  | none => simp [hbuf]
  | some bufs =>
    simp only [hbuf]
    rw [if_neg (by omega)]

/-- Witness for C6 at a concrete input (seed scenario 3 of the spec). -/
theorem negative_code_delivered_verbatim_witness :
    reader_dispatch_response ⟨7, IIOD_OP_RESPONSE, 0, -32⟩
        [⟨7, some [[0, 0]], 0, false, false⟩] [1, 2, 3] [] [] =
      some ⟨__iiod_reader_cancel_unlocked
              (fun a b => a.client_id == b.client_id)
              ⟨7, some [[0, 0]], 0, false, false⟩
              [⟨7, some [[0, 0]], 0, false, false⟩],
            some { (⟨7, some [[0, 0]], 0, false, false⟩ : Reader) with
                   r_code := -32, r_done := true },
            [], [1, 2, 3], 0, 0, none⟩ ∧
    iiod_reader_wait_for_response
      { (⟨7, some [[0, 0]], 0, false, false⟩ : Reader) with
        r_code := -32, r_done := true } = -32 :=
  negative_code_delivered_verbatim ⟨7, IIOD_OP_RESPONSE, 0, -32⟩
    [⟨7, some [[0, 0]], 0, false, false⟩] ⟨7, some [[0, 0]], 0, false, false⟩
    [1, 2, 3] [] [] (by decide) (by decide)

theorem create_reader_ids_get (s : Nat) (hs : s < 2 ^ 16) (k i : Nat)
    (hik : i < k) :
    (create_reader_ids s k)[i]? = some ((s + i) % 2 ^ 16) := by
  induction k generalizing s i with
  | zero => omega
  | succ k ih =>
    rw [create_reader_ids]
    simp only [iiod_responder_create_reader, iiod_responder_get_new_id]
    cases i with
    | zero =>
      simp only [List.getElem?_cons_zero, Option.some.injEq]
      rw [Nat.add_zero, Nat.mod_eq_of_lt hs]
    | succ i =>
      simp only [List.getElem?_cons_succ]
      rw [ih ((s + 1) % 2 ^ 16) (Nat.mod_lt _ (by norm_num)) i (by omega)]
      rw [Nat.mod_add_mod]
      congr 1
      omega

/-- C9: each `iiod_responder_create_reader` hands out the current
`next_client_id` and stores its 16-bit successor, so the `i`-th successive
creation receives `(s + i) mod 2^16` — consecutive ids wrapping silently at
`2^16`. -/
theorem client_ids_consecutive_wrap (s k i : Nat) (hs : s < 2 ^ 16)
    (hik : i < k) :
    iiod_responder_get_new_id s = (s, (s + 1) % 2 ^ 16) ∧
    iiod_responder_create_reader s = (s, (s + 1) % 2 ^ 16) ∧
    (create_reader_ids s k)[i]? = some ((s + i) % 2 ^ 16) := by
  refine ⟨?_, ?_, create_reader_ids_get s hs k i hik⟩
  · rw [iiod_responder_get_new_id, Nat.mod_eq_of_lt hs]
  · rw [iiod_responder_create_reader, iiod_responder_get_new_id,
      Nat.mod_eq_of_lt hs]

/-- Witness for C9 at a concrete input, exercising the silent wrap at
`2^16`: starting from `next_client_id = 65535`, the second creation gets
id `0`. -/
theorem client_ids_consecutive_wrap_witness :
    iiod_responder_get_new_id 65535 = (65535, 0) ∧
    iiod_responder_create_reader 65535 = (65535, 0) ∧
    (create_reader_ids 65535 2)[1]? = some 0 := by
  have h := client_ids_consecutive_wrap 65535 2 1 (by decide) (by decide)
  exact ⟨h.1, h.2.1, h.2.2⟩

/-- C10: `iiod_reader_send_command_async` and `iiod_reader_send_response_async`
return 0 for every argument combination (enqueueing never fails); caller
errors surface only in the writer thread's `iiod_rw_all` call, whose result
is stored in the handle's `w_io.cmd.code` and handed to the cleanup callback
(when a non-empty buffer list and a callback are present) rather than being
returned from the async call — in particular a frame with more than 32
effective descriptors yields the stored (and callback-delivered) `EINVAL`. -/
theorem async_enqueue_never_fails (writers : List WHandle) (reader w : WHandle)
    (rest : List WHandle) (cmd : iiod_command) (code : Int)
    (buf : List (List Nat)) (cleanup : Bool) (oracle : List Int)
    (inS outS : List Nat) (o : WStepOut) :
    (iiod_reader_send_command_async writers reader cmd buf cleanup).2.2 = 0 ∧
    (iiod_reader_send_response_async writers reader code buf cleanup).2.2 = 0 ∧
    (iiod_responder_writer_step (w :: rest) oracle inS outS = some o →
      o.writer.w_done = true ∧
      o.cleanupArg = (if w.w_buf.length ≠ 0 ∧ w.w_cleanup = true
                      then some o.writer.w_code else none)) ∧
    (32 ≤ w.w_buf.length →
      iiod_responder_writer_step (w :: rest) oracle inS outS =
        some ⟨rest, { w with w_code := EINVAL, w_done := true }, outS,
              if w.w_cleanup = true then some EINVAL else none⟩) := by
  refine ⟨rfl, rfl, ?_, ?_⟩
  · intro hstep
    rw [iiod_responder_writer_step] at hstep
    cases hrw : iiod_rw_all oracle (some (cmd_bytes (w_cmd w))) w.w_buf 0
        false inS outS with
    | none => rw [hrw] at hstep; simp at hstep
    | some rwout =>
      rw [hrw, Option.some.injEq] at hstep
      subst hstep
      exact ⟨rfl, rfl⟩
  · intro hlen
    have hne : w.w_buf.length ≠ 0 := by omega
    rw [iiod_responder_writer_step]
    have hrw : iiod_rw_all oracle (some (cmd_bytes (w_cmd w))) w.w_buf 0
        false inS outS = some ⟨EINVAL, outS, [], inS, 0⟩ := by
      rw [iiod_rw_all]
      exact if_pos (by right; simp only [List.length_cons]; omega)
    rw [hrw]
    simp [hne]

/-- Witness for C10 at a concrete input: a frame with 33 one-byte
descriptors and a cleanup callback enqueues fine, and the writer step stores
`EINVAL` in `w_io.cmd.code` and passes it to the callback. -/
theorem async_enqueue_never_fails_witness :
    (iiod_reader_send_command_async [] ⟨1, 0, 0, 0, [], false, false⟩
      ⟨1, 2, 0, 5⟩ [[1], [2]] true).2.2 = 0 ∧
    (iiod_reader_send_response_async [] ⟨1, 0, 0, 0, [], false, false⟩
      7 [[1], [2]] true).2.2 = 0 ∧
    ((⟨[], { (⟨3, 0, 0, 0, List.replicate 33 [1], true, false⟩ : WHandle) with
             w_code := EINVAL, w_done := true }, [],
       if (⟨3, 0, 0, 0, List.replicate 33 [1], true, false⟩ : WHandle).w_cleanup
           = true then some EINVAL else none⟩ : WStepOut).writer.w_done =
        true ∧
      (⟨[], { (⟨3, 0, 0, 0, List.replicate 33 [1], true, false⟩ : WHandle) with
              w_code := EINVAL, w_done := true }, [],
        if (⟨3, 0, 0, 0, List.replicate 33 [1], true, false⟩ : WHandle).w_cleanup
            = true then some EINVAL else none⟩ : WStepOut).cleanupArg =
        (if (⟨3, 0, 0, 0, List.replicate 33 [1], true,
              false⟩ : WHandle).w_buf.length ≠ 0 ∧
            (⟨3, 0, 0, 0, List.replicate 33 [1], true,
              false⟩ : WHandle).w_cleanup = true
         then some (⟨[], { (⟨3, 0, 0, 0, List.replicate 33 [1], true,
                            false⟩ : WHandle) with
                           w_code := EINVAL, w_done := true }, [],
                     if (⟨3, 0, 0, 0, List.replicate 33 [1], true,
                          false⟩ : WHandle).w_cleanup = true
                     then some EINVAL else none⟩ : WStepOut).writer.w_code
         else none)) ∧
    iiod_responder_writer_step [⟨3, 0, 0, 0, List.replicate 33 [1], true,
        false⟩] [] [] [] =
      some ⟨[], { (⟨3, 0, 0, 0, List.replicate 33 [1], true,
                   false⟩ : WHandle) with
                  w_code := EINVAL, w_done := true }, [],
            if (⟨3, 0, 0, 0, List.replicate 33 [1], true,
                 false⟩ : WHandle).w_cleanup = true
            then some EINVAL else none⟩ := by
  have h := async_enqueue_never_fails [] ⟨1, 0, 0, 0, [], false, false⟩
    ⟨3, 0, 0, 0, List.replicate 33 [1], true, false⟩ [] ⟨1, 2, 0, 5⟩ 7
    [[1], [2]] true [] [] []
    ⟨[], { (⟨3, 0, 0, 0, List.replicate 33 [1], true, false⟩ : WHandle) with
           w_code := EINVAL, w_done := true }, [],
     if (⟨3, 0, 0, 0, List.replicate 33 [1], true, false⟩ : WHandle).w_cleanup
         = true then some EINVAL else none⟩
  exact ⟨h.1, h.2.1, h.2.2.1 (h.2.2.2 (by decide)), h.2.2.2 (by decide)⟩

/-- The effective descriptor list of an `iiod_rw_all` call: the optional
header descriptor (`cmd_buf`) prepended to the payload list. -/
def eff_bufs (cmd_buf : Option (List Nat)) (buf : List (List Nat)) :
    List (List Nat) :=
  match cmd_buf with
  | some c => c :: buf
  | none => buf

/-- C7: `iiod_rw_all` with no header and zero payload descriptors, or with
an effective descriptor count above 32, returns `EINVAL` and performs no
transport I/O (zero transport calls, streams untouched); otherwise — for a
transport that never returns 0 — it returns either the total number of bytes
transferred (the bytes placed in the receive buffers resp. emitted on the
outbound stream) or a negative error propagated from the transport. -/
theorem rw_all_einval_or_transfer (oracle : List Int)
    (cmd_buf : Option (List Nat)) (buf : List (List Nat)) (bytes : Nat)
    (is_read : Bool) (inS outS : List Nat) :
    ((eff_bufs cmd_buf buf).length = 0 ∨ (eff_bufs cmd_buf buf).length > 32 →
      iiod_rw_all oracle cmd_buf buf bytes is_read inS outS =
        some ⟨EINVAL, outS, [], inS, 0⟩) ∧
    (¬((eff_bufs cmd_buf buf).length = 0 ∨
        (eff_bufs cmd_buf buf).length > 32) →
      (∀ o ∈ oracle, o ≠ 0) →
      (is_read = true → listTotal (eff_bufs cmd_buf buf) ≤ inS.length) →
      ∀ out, iiod_rw_all oracle cmd_buf buf bytes is_read inS outS =
          some out →
        (out.ret < 0 ∧ out.ret ∈ oracle) ∨
        (0 ≤ out.ret ∧ out.ret.toNat + outS.length =
          out.delivered.length + out.outStream.length)) := by
  constructor
  · intro hcond
    unfold iiod_rw_all
    exact if_pos hcond
  · intro hcond hor hin out hsome
    change (if (eff_bufs cmd_buf buf).length = 0 ∨
        (eff_bufs cmd_buf buf).length > 32 then
        some ⟨EINVAL, outS, [], inS, 0⟩
      else rw_loop is_read bytes oracle (eff_bufs cmd_buf buf) 0 inS outS
        [] 0) = some out at hsome
    rw [if_neg hcond] at hsome
    have hres := rw_loop_result_cases is_read bytes oracle
      (eff_bufs cmd_buf buf) 0 inS outS [] 0 out hor hin hsome
    rcases hres with hl | hr
    · exact Or.inl hl
    · refine Or.inr ⟨hr.1, ?_⟩
      have := hr.2
      simp only [List.length_nil] at this
      omega

/-- Witness for C7 at concrete inputs: the empty-descriptor `EINVAL` case,
and a transport error `-5` propagated from a read. -/
theorem rw_all_einval_or_transfer_witness :
    iiod_rw_all ([] : List Int) none [] 0 false [] [] =
      some ⟨EINVAL, [], [], [], 0⟩ ∧
    (((⟨-5, [], [], [1, 2, 3], 1⟩ : RwOut).ret < 0 ∧
        (⟨-5, [], [], [1, 2, 3], 1⟩ : RwOut).ret ∈ [(-5 : Int)]) ∨
      (0 ≤ (⟨-5, [], [], [1, 2, 3], 1⟩ : RwOut).ret ∧
        (⟨-5, [], [], [1, 2, 3], 1⟩ : RwOut).ret.toNat +
          ([] : List Nat).length =
        (⟨-5, [], [], [1, 2, 3], 1⟩ : RwOut).delivered.length +
          (⟨-5, [], [], [1, 2, 3], 1⟩ : RwOut).outStream.length)) := by
  constructor
  · exact (rw_all_einval_or_transfer [] none [] 0 false [] []).1 (by decide)
  · exact (rw_all_einval_or_transfer [-5] none [[0, 0]] 8 true
      [1, 2, 3] []).2 (by decide) (by decide) (by decide) _ (by decide)

theorem toSize_of_nonneg (i : Int) (h0 : 0 ≤ i) (h64 : i < (2 : Int) ^ 64) :
    toSize i = i.toNat := by
  rw [toSize, Int.emod_eq_of_lt h0 h64]

/-- C3: for a registered waiter whose receive buffer list has total capacity
`c`, a RESPONSE declaring `code > c` payload bytes makes the reader thread
write exactly the first `c` payload bytes into the waiter's buffers, discard
the remaining `code - c` bytes to preserve framing, and
`iiod_reader_wait_for_response` then returns the full declared `code`. -/
theorem oversize_response_truncated (cmd : iiod_command)
    (readers : List Reader) (w : Reader) (bufs : List (List Nat))
    (inS : List Nat) (roracle doracle : List Int) (out : DispatchOut)
    (hfind : readers.find? (fun r => r.client_id == cmd.client_id) = some w)
    (hbuf : w.r_buf = some bufs)
    (hn0 : bufs ≠ []) (hn32 : bufs.length ≤ 32)
    (hpos : 0 < listTotal bufs)
    (hcap : (listTotal bufs : Int) < cmd.code)
    (hc32 : cmd.code < 2 ^ 31)
    (hin : listTotal bufs ≤ inS.length)
    (hror : ∀ o ∈ roracle, 0 < o)
    (hdok : discardOK doracle (cmd.code.toNat - listTotal bufs) = true)
    (hsome : reader_dispatch_response cmd readers inS roracle doracle =
      some out) :
    out.waiter = some { w with r_code := cmd.code, r_done := true } ∧
    iiod_reader_wait_for_response
      { w with r_code := cmd.code, r_done := true } = cmd.code ∧
    out.delivered = inS.take (listTotal bufs) ∧
    out.discardReq = cmd.code.toNat - listTotal bufs ∧
    out.inStream = inS.drop cmd.code.toNat ∧
    out.rwRet = some ((listTotal bufs : Nat) : Int) := by
  have hcode0 : 0 < cmd.code := by omega
  have hts : toSize cmd.code = cmd.code.toNat :=
    toSize_of_nonneg _ (by omega) (by omega)
  have hlen0 : bufs.length ≠ 0 := by
    cases bufs with
    | nil => exact absurd rfl hn0
    | cons x xs => simp
  rw [reader_dispatch_response, hfind] at hsome
  simp only [hbuf] at hsome
  rw [if_pos hcode0] at hsome
  cases hrw : iiod_rw_all roracle none bufs (toSize cmd.code) true inS []
    with
  | none => rw [hrw] at hsome; simp at hsome
  | some rwout =>
    simp only [hrw] at hsome
    have hloop : rw_loop true (toSize cmd.code) roracle bufs 0 inS [] [] 0 =
        some rwout := by
      have hthis := hrw
      unfold iiod_rw_all at hthis
      rw [if_neg (show ¬(bufs.length = 0 ∨ bufs.length > 32) by omega)]
        at hthis
      exact hthis
    obtain ⟨hr1, hr2, hr3, hr4⟩ := rw_loop_read_over (toSize cmd.code)
      roracle bufs 0 inS [] [] 0 rwout hror (by rw [hts]; omega) hin hloop
    have hret : rwout.ret = ((listTotal bufs : Nat) : Int) := by
      rw [hr1]
      norm_num
    have hretT : toSize rwout.ret = listTotal bufs := by
      rw [hret, toSize_of_nonneg _ (by omega) (by omega)]
      omega
    have hcondT : 0 < rwout.ret ∧ toSize rwout.ret < toSize cmd.code := by
      refine ⟨by rw [hret]; exact_mod_cast hpos, ?_⟩
      rw [hretT, hts]
      omega
    rw [if_pos hcondT] at hsome
    have htdiff : toSize (cmd.code - rwout.ret) =
        cmd.code.toNat - listTotal bufs := by
      rw [hret, toSize_of_nonneg _ (by omega) (by omega)]
      omega
    have hdisc : iiod_discard_data doracle (toSize (cmd.code - rwout.ret))
        rwout.inStream = some (0, inS.drop cmd.code.toNat) := by
      rw [htdiff, hr3, iiod_discard_data_spec _ _ _ hdok, List.drop_drop]
      have harith : listTotal bufs + (cmd.code.toNat - listTotal bufs) =
          cmd.code.toNat := by omega
      rw [harith]
    simp only [hdisc] at hsome
    rw [Option.some.injEq] at hsome
    subst hsome
    refine ⟨by rw [hbuf], rfl, ?_, htdiff, rfl, by rw [hret]⟩
    rw [hr2, List.nil_append]

/-- Witness for C3 at a concrete input (spec seed scenario 5, scaled down):
capacity 2, declared code 5: 2 bytes delivered, 3 discarded, waiter sees 5. -/
theorem oversize_response_truncated_witness :
    (⟨[], some ⟨7, some [[0, 0]], 5, true, false⟩, [1, 2], [6, 7], 3, 0,
       some 2⟩ : DispatchOut).waiter =
      some ⟨7, some [[0, 0]], 5, true, false⟩ ∧
    iiod_reader_wait_for_response ⟨7, some [[0, 0]], 5, true, false⟩ = 5 ∧
    (⟨[], some ⟨7, some [[0, 0]], 5, true, false⟩, [1, 2], [6, 7], 3, 0,
       some 2⟩ : DispatchOut).delivered = [1, 2, 3, 4, 5, 6, 7].take 2 ∧
    (⟨[], some ⟨7, some [[0, 0]], 5, true, false⟩, [1, 2], [6, 7], 3, 0,
       some 2⟩ : DispatchOut).discardReq = 3 ∧
    (⟨[], some ⟨7, some [[0, 0]], 5, true, false⟩, [1, 2], [6, 7], 3, 0,
       some 2⟩ : DispatchOut).inStream = [1, 2, 3, 4, 5, 6, 7].drop 5 ∧
    (⟨[], some ⟨7, some [[0, 0]], 5, true, false⟩, [1, 2], [6, 7], 3, 0,
       some 2⟩ : DispatchOut).rwRet = some 2 :=
  oversize_response_truncated ⟨7, IIOD_OP_RESPONSE, 0, 5⟩
    [⟨7, some [[0, 0]], 0, false, false⟩] ⟨7, some [[0, 0]], 0, false, false⟩
    [[0, 0]] [1, 2, 3, 4, 5, 6, 7] [2] [3]
    ⟨[], some ⟨7, some [[0, 0]], 5, true, false⟩, [1, 2], [6, 7], 3, 0,
     some 2⟩
    (by decide) (by decide) (by decide) (by decide) (by decide) (by decide)
    (by decide) (by decide) (by decide) (by decide) (by decide)

theorem writer_run_stuck (events : List WriterEvent) (s : WriterRun)
    (h : s.ok = false) : writer_run s events = s := by
  induction events with
  | nil => rfl
  | cons e es ih =>
    rw [writer_run, writer_run_step.eq_def, if_pos (by simp [h])]
    exact ih

theorem iiod_enqueue_command_fst (ws : List WHandle) (h₀ : WHandle)
    (op dev : Nat) (code : Int) (buf : List (List Nat)) (cl : Bool) :
    (iiod_enqueue_command ws h₀ op dev code buf cl).1 =
      ws ++ [(iiod_enqueue_command [] h₀ op dev code buf cl).2.1] := by
  cases ws <;> simp [iiod_enqueue_command]

theorem frame_bytes_length (w : WHandle) :
    (frame_bytes w).length =
      listTotal (cmd_bytes (w_cmd w) :: w.w_buf) := by
  rw [frame_bytes, List.length_append, listTotal_cons,
    listTotal_eq_length_flatten]

theorem writer_run_invariant (events : List WriterEvent) (s : WriterRun)
    (hs : s.ok = true → s.outStream = (s.sent.map frame_bytes).flatten)
    (hok : (writer_run s events).ok = true) :
    (writer_run s events).outStream =
      ((writer_run s events).sent.map frame_bytes).flatten ∧
    (writer_run s events).sent ++ (writer_run s events).writers =
      s.sent ++ s.writers ++ enqueued_frames events := by
  induction events generalizing s with
  | nil =>
    rw [writer_run] at hok ⊢
    rw [enqueued_frames, List.append_nil]
    exact ⟨hs hok, rfl⟩
  | cons e es ih =>
    rw [writer_run] at hok ⊢
    cases hsok : s.ok with
    | false =>
      have hstep : writer_run_step s e = s := by
        rw [writer_run_step.eq_def, if_pos (by simp [hsok])]
      rw [hstep, writer_run_stuck es s hsok] at hok
      rw [hok] at hsok
      exact absurd hsok (by simp)
    | true =>
      cases e with
      | enq h₀ op dev code buf cl =>
        have hstep : writer_run_step s (.enq h₀ op dev code buf cl) =
            { s with writers := s.writers ++
              [(iiod_enqueue_command [] h₀ op dev code buf cl).2.1] } := by
          rw [writer_run_step, if_neg (by simp [hsok])]
          simp only
          rw [← iiod_enqueue_command_fst]
        rw [hstep] at hok ⊢
        obtain ⟨ih1, ih2⟩ := ih { s with writers := s.writers ++
            [(iiod_enqueue_command [] h₀ op dev code buf cl).2.1] }
          (fun _ => hs hsok) hok
        refine ⟨ih1, ?_⟩
        rw [ih2, enqueued_frames]
        simp [List.append_assoc]
      | write oracle =>
        cases hw : s.writers with
        | nil =>
          have hstep : writer_run_step s (.write oracle) = s := by
            rw [writer_run_step.eq_def, if_neg (by simp [hsok])]
            simp only [hw]
          rw [hstep] at hok ⊢
          obtain ⟨ih1, ih2⟩ := ih _ hs hok
          rw [enqueued_frames]
          exact ⟨ih1, by rw [ih2, hw]⟩
        | cons w rest =>
          cases hstepres : iiod_responder_writer_step s.writers oracle []
              s.outStream with
          | none =>
            rw [hw] at hstepres
            have hstep : writer_run_step s (.write oracle) =
                { s with ok := false } := by
              rw [writer_run_step.eq_def, if_neg (by simp [hsok])]
              simp only [hw, hstepres]
            rw [hstep, writer_run_stuck es _ (by simp)] at hok
            simp at hok
          | some o =>
            rw [hw] at hstepres
            rw [iiod_responder_writer_step] at hstepres
            cases hrw : iiod_rw_all oracle (some (cmd_bytes (w_cmd w)))
                w.w_buf 0 false [] s.outStream with
            | none => rw [hrw] at hstepres; simp at hstepres
            | some rwout =>
              rw [hrw, Option.some.injEq] at hstepres
              subst hstepres
              by_cases hcheck : w.w_buf.length + 1 ≤ 32 ∧
                  rwout.ret = ((frame_bytes w).length : Int)
              · have hloop : rw_loop false 0 oracle
                    (cmd_bytes (w_cmd w) :: w.w_buf) 0 [] s.outStream [] 0 =
                    some rwout := by
                  have hthis := hrw
                  unfold iiod_rw_all at hthis
                  rw [if_neg (show ¬((cmd_bytes (w_cmd w) :: w.w_buf).length
                    = 0 ∨ (cmd_bytes (w_cmd w) :: w.w_buf).length > 32) by
                      simp only [List.length_cons]
                      omega)] at hthis
                  exact hthis
                have hlen8 : cmd_bytes (w_cmd w) ≠ [] := by
                  rw [cmd_bytes]
                  simp [u16_bytes]
                have hpos : 0 < listTotal (cmd_bytes (w_cmd w) :: w.w_buf) := by
                  rw [listTotal_cons]
                  cases hcb : cmd_bytes (w_cmd w) with
                  | nil => exact absurd hcb hlen8
                  | cons x xs => simp
                obtain ⟨ho1, ho2, ho3⟩ := rw_loop_write_total 0 oracle
                  (cmd_bytes (w_cmd w) :: w.w_buf) 0 [] s.outStream [] 0
                  rwout hloop (by rw [hcheck.2, frame_bytes_length]; norm_num)
                  (by omega)
                have hout : rwout.outStream =
                    s.outStream ++ frame_bytes w := by
                  rw [ho1, List.flatten_cons, frame_bytes]
                have hstep : writer_run_step s (.write oracle) =
                    ⟨rest, rwout.outStream, s.sent ++ [w], true⟩ := by
                  rw [writer_run_step.eq_def, if_neg (by simp [hsok])]
                  simp only [hw, iiod_responder_writer_step, hrw]
                  rw [if_pos hcheck]
                rw [hstep] at hok ⊢
                obtain ⟨ih1, ih2⟩ := ih ⟨rest, rwout.outStream,
                  s.sent ++ [w], true⟩
                  (fun _ => by
                    show rwout.outStream = _
                    rw [hout, hs hsok, List.map_append, List.flatten_append]
                    simp) hok
                refine ⟨ih1, ?_⟩
                rw [ih2, enqueued_frames]
                simp [List.append_assoc]
              · have hstep : writer_run_step s (.write oracle) =
                    { s with ok := false } := by
                  rw [writer_run_step.eq_def, if_neg (by simp [hsok])]
                  simp only [hw, iiod_responder_writer_step, hrw]
                  rw [if_neg (by exact fun hc => hcheck ⟨hc.1, hc.2⟩)]
                rw [hstep, writer_run_stuck es _ (by simp)] at hok
                simp at hok

/-- Byte offset at which the `i`-th sent frame starts on the outbound
stream. -/
def sent_pos (l : List WHandle) (i : Nat) : Nat :=
  ((l.take i).map (fun w => (frame_bytes w).length)).sum

theorem sent_pos_lemma (l : List WHandle) (i j : Nat) (fi : WHandle)
    (hij : i < j) (hfi : l[i]? = some fi) (hj : j ≤ l.length) :
    sent_pos l i + (frame_bytes fi).length ≤ sent_pos l j := by
  have hstep : sent_pos l i + (frame_bytes fi).length =
      sent_pos l (i + 1) := by
    rw [sent_pos, sent_pos, List.take_succ, hfi]
    simp
  have hmono : sent_pos l (i + 1) ≤ sent_pos l j := by
    have hsplit : l.take j =
        l.take (i + 1) ++ (l.drop (i + 1)).take (j - (i + 1)) := by
      rw [← List.take_add]
      congr 1
      omega
    rw [sent_pos, sent_pos, hsplit, List.map_append, List.sum_append]
    exact Nat.le_add_right _ _
  omega

/-- C5: the writer queue is FIFO.  `iiod_enqueue_command` appends at the
tail and the writer thread detaches the head, so in every run in which all
writer steps complete their frames, the transport's outbound byte stream is
exactly the concatenation of the sent frames in enqueue order; in
particular, for frames `Fi` enqueued before `Fj`, `Fi`'s complete frame
(8-byte header then payload) ends at or before the byte offset where `Fj`'s
header starts. -/
theorem writer_queue_fifo_byte_stream (events : List WriterEvent)
    (hok : (writer_run ⟨[], [], [], true⟩ events).ok = true) :
    (writer_run ⟨[], [], [], true⟩ events).outStream =
      ((writer_run ⟨[], [], [], true⟩ events).sent.map frame_bytes).flatten ∧
    (writer_run ⟨[], [], [], true⟩ events).sent ++
      (writer_run ⟨[], [], [], true⟩ events).writers =
      enqueued_frames events ∧
    ∀ i j : Nat, ∀ fi : WHandle, i < j →
      (writer_run ⟨[], [], [], true⟩ events).sent[i]? = some fi →
      j ≤ (writer_run ⟨[], [], [], true⟩ events).sent.length →
      sent_pos (writer_run ⟨[], [], [], true⟩ events).sent i +
        (frame_bytes fi).length ≤
      sent_pos (writer_run ⟨[], [], [], true⟩ events).sent j := by
  obtain ⟨h1, h2⟩ := writer_run_invariant events ⟨[], [], [], true⟩
    (fun _ => rfl) hok
  refine ⟨h1, by simpa using h2, ?_⟩
  intro i j fi hij hfi hj
  exact sent_pos_lemma _ i j fi hij hfi hj

/-- Witness for C5 at a concrete run: two frames enqueued then written; the
stream is their concatenation in enqueue order and frame 0 ends before
frame 1 starts. -/
theorem writer_queue_fifo_byte_stream_witness :
    (writer_run ⟨[], [], [], true⟩
      [.enq ⟨1, 0, 0, 0, [], false, false⟩ 2 0 5 [[9]] false,
       .enq ⟨2, 0, 0, 0, [], false, false⟩ 3 0 6 [[8, 8]] false,
       .write [9], .write [10]]).outStream =
      (((writer_run ⟨[], [], [], true⟩
        [.enq ⟨1, 0, 0, 0, [], false, false⟩ 2 0 5 [[9]] false,
         .enq ⟨2, 0, 0, 0, [], false, false⟩ 3 0 6 [[8, 8]] false,
         .write [9], .write [10]]).sent).map frame_bytes).flatten ∧
    (writer_run ⟨[], [], [], true⟩
      [.enq ⟨1, 0, 0, 0, [], false, false⟩ 2 0 5 [[9]] false,
       .enq ⟨2, 0, 0, 0, [], false, false⟩ 3 0 6 [[8, 8]] false,
       .write [9], .write [10]]).sent ++
      (writer_run ⟨[], [], [], true⟩
        [.enq ⟨1, 0, 0, 0, [], false, false⟩ 2 0 5 [[9]] false,
         .enq ⟨2, 0, 0, 0, [], false, false⟩ 3 0 6 [[8, 8]] false,
         .write [9], .write [10]]).writers =
      enqueued_frames
        [.enq ⟨1, 0, 0, 0, [], false, false⟩ 2 0 5 [[9]] false,
         .enq ⟨2, 0, 0, 0, [], false, false⟩ 3 0 6 [[8, 8]] false,
         .write [9], .write [10]] ∧
    sent_pos (writer_run ⟨[], [], [], true⟩
      [.enq ⟨1, 0, 0, 0, [], false, false⟩ 2 0 5 [[9]] false,
       .enq ⟨2, 0, 0, 0, [], false, false⟩ 3 0 6 [[8, 8]] false,
       .write [9], .write [10]]).sent 0 +
      (frame_bytes ⟨1, 2, 0, 5, [[9]], false, false⟩).length ≤
    sent_pos (writer_run ⟨[], [], [], true⟩
      [.enq ⟨1, 0, 0, 0, [], false, false⟩ 2 0 5 [[9]] false,
       .enq ⟨2, 0, 0, 0, [], false, false⟩ 3 0 6 [[8, 8]] false,
       .write [9], .write [10]]).sent 1 := by
  have h := writer_queue_fifo_byte_stream
    [.enq ⟨1, 0, 0, 0, [], false, false⟩ 2 0 5 [[9]] false,
     .enq ⟨2, 0, 0, 0, [], false, false⟩ 3 0 6 [[8, 8]] false,
     .write [9], .write [10]] (by decide)
  exact ⟨h.1, h.2.1, h.2.2 0 1 ⟨1, 2, 0, 5, [[9]], false, false⟩
    (by decide) (by decide) (by decide)⟩

end IiodResponder

